import Mathlib

/-!
# Verification of the match-sorter ranking/sorting library

Shallow embedding of `src/index.js`: a JavaScript library that filters and
orders a collection of items against a query string.

Modelling conventions:
* JavaScript values that can flow through the library (strings, numbers,
  `null`, `undefined`, flat objects) are modelled by the inductive `JSVal`.
  Template-literal coercion (the source's backtick interpolation) is
  `jsToString`; in particular `undefined` stringifies to `"undefined"`,
  `null` to `"null"` and objects to `"[object Object]"`, exactly as in JS.
* JS strings are modelled as `List Char`; `toLowerCase` as `Char.toLower`
  mapped over the characters (character-faithful on the ASCII data the
  library manipulates).  `indexOf(s) === 0` is `List.isPrefixOf`,
  `indexOf(s) !== -1` is `strContains`, `split` is `splitOnChar`,
  `substr(0, 1)` is `List.take 1`.
* `options.keys` is `Option (List String)`: `none` is an absent/falsy
  `keys` (the `!keys` test in `getHighestRanking`); `some ks` is a supplied
  array, which in JS is truthy even when empty.
* `Array.prototype.sort` with the comparator `sortRankedItems` is modelled
  by the stable `List.insertionSort` under the relation `rankedLE a b`
  ("the comparator does not place `b` strictly before `a`").  Since the
  comparator is antisymmetric and total on the records the library builds
  (their input indices are pairwise distinct), every comparator-consistent
  sort produces the same permutation, so the choice of algorithm is
  irrelevant; stability of `insertionSort` matches the stability JS
  guarantees on ties.
-/

/-- The `matchRankMap` constant object of the source, one `Int` per tier. -/
def matchRankMap.equals : Int := 5

def matchRankMap.startsWith : Int := 4

def matchRankMap.wordStartsWith : Int := 3

def matchRankMap.contains : Int := 2

def matchRankMap.acronym : Int := 1

def matchRankMap.matches : Int := 0

def matchRankMap.noMatch : Int := -1

/-- JavaScript values that the library manipulates. -/
inductive JSVal where
  | str (s : String)
  | num (n : Int)
  | null
  | undefined
  | obj (fields : List (String × String))
deriving DecidableEq

/-- JS template-literal coercion to a string. -/
def jsToString : JSVal → String
  | .str s => s
  | .num n => toString n
  | .null => "null"
  | .undefined => "undefined"
  | .obj _ => "[object Object]"

/-- `item[key]` on the values above: object field lookup, `undefined` when
the field is absent (and on non-objects, which the library never indexes). -/
def getField : JSVal → String → JSVal
  | .obj fields, k =>
    match fields.lookup k with
    | some v => .str v
    | none => .undefined
  | _, _ => .undefined

/-- Coerce to string and lowercase: the source's
`` (`${x}`).toLowerCase() ``, as a character list. -/
def jsLower (v : JSVal) : List Char :=
  (jsToString v).data.map Char.toLower

/-- JS `indexOf(s) !== -1`: `s` occurs as a contiguous run inside `t`. -/
def strContains : List Char → List Char → Bool
  | [], s => s.isEmpty
  | a :: rest, s => s.isPrefixOf (a :: rest) || strContains rest s

/-- JS `String.prototype.split(c)`: the segments of `l` between
occurrences of `c` (adjacent separators yield empty segments, as in JS). -/
def splitOnChar (c : Char) : List Char → List (List Char)
  | [] => [[]]
  | x :: rest =>
    match splitOnChar c rest with
    | [] => [[x]]
    | w :: ws => if x = c then [] :: w :: ws else (x :: w) :: ws

/-- `getAcronym` of the source: split on spaces, split each word on
hyphens, and append the first character (`substr(0, 1)`) of each
sub-word. -/
def getAcronym (string : List Char) : List Char :=
  (splitOnChar ' ' string).foldl
    (fun acronym wordInString =>
      (splitOnChar '-' wordInString).foldl
        (fun acc splitByHyphenWord => acc ++ splitByHyphenWord.take 1)
        acronym)
    []

/-- The inner loop of `stringsByCharOrder`: scan `string` from the cursor
for `matchChar`; `some rest` is "found, cursor now just past the match",
`none` is "not found before the end". -/
def findMatchingCharacter (matchChar : Char) : List Char → Option (List Char)
  | [] => none
  | c :: rest => if c = matchChar then some rest else findMatchingCharacter matchChar rest

/-- The outer loop of `stringsByCharOrder`: consume the query characters
in order, each scanning forward from the current cursor. -/
def charOrderLoop : List Char → List Char → Bool
  | _, [] => true
  | t, q :: qs =>
    match findMatchingCharacter q t with
    | none => false
    | some t2 => charOrderLoop t2 qs

/-- `stringsByCharOrder` of the source: `matches` when every character of
`stringToRank` is found, in order, by the greedy forward scan; otherwise
`noMatch`. -/
def stringsByCharOrder (testString stringToRank : List Char) : Int :=
  if charOrderLoop testString stringToRank then matchRankMap.matches
  else matchRankMap.noMatch

/-- `getMatchRanking` of the source: classify `stringToRank` against
`testString`, both coerced to lowercased text first. -/
def getMatchRanking (testString stringToRank : JSVal) : Int :=
  let t := jsLower testString
  let s := jsLower stringToRank
  if s.length > t.length then matchRankMap.noMatch
  else if t = s then matchRankMap.equals
  else if s.isPrefixOf t then matchRankMap.startsWith
  else if strContains t (' ' :: s) then matchRankMap.wordStartsWith
  else if strContains t s then matchRankMap.contains
  else if s.length = 1 then matchRankMap.noMatch
  else if strContains (getAcronym t) s then matchRankMap.acronym
  else stringsByCharOrder t s

/-- The `{rank, keyIndex}` accumulator of `getHighestRanking`. -/
structure RankResult where
  rank : Int
  keyIndex : Int
deriving DecidableEq, Repr

/-- The `keys.reduce` loop of `getHighestRanking`, with the running JS
array index made explicit. -/
def getHighestRankingGo (item : JSVal) (value : JSVal) :
    List String → Int → RankResult → RankResult
  | [], _, acc => acc
  | key :: rest, i, acc =>
    let newRank := getMatchRanking (getField item key) value
    getHighestRankingGo item value rest (i + 1)
      (if newRank > acc.rank then ⟨newRank, i⟩ else acc)

/-- `getHighestRanking` of the source.  `none` models a falsy `keys`
(the `!keys` branch); a present array — even an empty one — is truthy in
JS and goes through the reduce with initial `{rank: noMatch, keyIndex: -1}`. -/
def getHighestRanking (item : JSVal) (keys : Option (List String)) (value : JSVal) :
    RankResult :=
  match keys with
  | none => ⟨getMatchRanking item value, -1⟩
  | some ks => getHighestRankingGo item value ks 0 ⟨matchRankMap.noMatch, -1⟩

/-- A `{item, rank, index, keyIndex}` record pushed by
`reduceItemsToRanked`. -/
structure RankedItem where
  item : JSVal
  rank : Int
  index : Nat
  keyIndex : Int
deriving DecidableEq

/-- The `items.reduce(reduceItemsToRanked, [])` pass of `matchSorter`:
keep, in input order, a record for every item whose best rank exceeds
`noMatch`, remembering its input index. -/
def reduceItemsToRanked (keys : Option (List String)) (value : JSVal) :
    List JSVal → Nat → List RankedItem
  | [], _ => []
  | item :: rest, index =>
    let r := getHighestRanking item keys value
    if r.rank > matchRankMap.noMatch then
      ⟨item, r.rank, index, r.keyIndex⟩ :: reduceItemsToRanked keys value rest (index + 1)
    else
      reduceItemsToRanked keys value rest (index + 1)

/-- `sortRankedItems` of the source: the comparator over ranked records.
It returns `-1` (`aFirst`) or `1` (`bFirst`), never `0`. -/
def sortRankedItems (a b : RankedItem) : Int :=
  if a.rank = b.rank then
    if a.keyIndex = b.keyIndex then
      if a.index < b.index then -1 else 1
    else
      if a.keyIndex < b.keyIndex then -1 else 1
  else
    if a.rank > b.rank then -1 else 1

/-- "`a` may precede `b`" under the comparator: the comparator does not
place `b` strictly before `a`.  `Array.prototype.sort` returns a
permutation that is sorted in exactly this sense. -/
def rankedLE (a b : RankedItem) : Prop := sortRankedItems b a = 1

instance (a b : RankedItem) : Decidable (rankedLE a b) :=
  inferInstanceAs (Decidable (sortRankedItems b a = 1))

/-- The ranked records of a `matchSorter` call, before sorting. -/
def rankedMatches (items : List JSVal) (value : JSVal) (keys : Option (List String)) :
    List RankedItem :=
  reduceItemsToRanked keys value items 0

/-- The ranked records of a `matchSorter` call, after the comparator sort. -/
def sortedMatches (items : List JSVal) (value : JSVal) (keys : Option (List String)) :
    List RankedItem :=
  List.insertionSort rankedLE (rankedMatches items value keys)

/-- `matchSorter` of the source: rank, filter, sort, then unwrap
(`.map(({item}) => item)`).  `keys` is the one recognized option. -/
def matchSorter (items : List JSVal) (value : JSVal) (keys : Option (List String)) :
    List JSVal :=
  (sortedMatches items value keys).map (fun r => r.item)

/-! ## Helper lemmas about the comparator and the ranking pass -/

/-- `a` strictly precedes `b` in the output order: rank tier descending,
then winning key index ascending, then original input index ascending. -/
def rankedBefore (a b : RankedItem) : Prop :=
  b.rank < a.rank ∨
    (a.rank = b.rank ∧
      (a.keyIndex < b.keyIndex ∨ (a.keyIndex = b.keyIndex ∧ a.index < b.index)))

theorem rankedLE_iff (a b : RankedItem) :
    rankedLE a b ↔
      (b.rank < a.rank ∨
        (a.rank = b.rank ∧
          (a.keyIndex < b.keyIndex ∨ (a.keyIndex = b.keyIndex ∧ a.index ≤ b.index)))) := by
  show sortRankedItems b a = 1 ↔ _
  unfold sortRankedItems
  split_ifs <;> constructor <;> intro h <;> first
    | omega
    | exact h.elim

instance : IsTotal RankedItem rankedLE :=
  ⟨fun a b => by rw [rankedLE_iff, rankedLE_iff]; omega⟩

instance : IsTrans RankedItem rankedLE :=
  ⟨fun a b c hab hbc => by
    rw [rankedLE_iff] at hab hbc ⊢
    omega⟩

theorem sortRankedItems_ne_zero (a b : RankedItem) :
    sortRankedItems a b = -1 ∨ sortRankedItems a b = 1 := by
  unfold sortRankedItems
  split_ifs <;> simp

theorem mem_reduceItemsToRanked {keys : Option (List String)} {value : JSVal} :
    ∀ {items : List JSVal} {n : Nat} {r : RankedItem},
      r ∈ reduceItemsToRanked keys value items n →
      getHighestRanking r.item keys value = ⟨r.rank, r.keyIndex⟩ ∧
        r.rank > matchRankMap.noMatch ∧ n ≤ r.index := by
  intro items
  induction items with
  | nil => intro n r h; simp [reduceItemsToRanked] at h
  | cons item rest ih =>
    intro n r h
    simp only [reduceItemsToRanked] at h
    split at h
    case isTrue hrank =>
      rcases List.mem_cons.mp h with hhd | htl
      · subst hhd
        exact ⟨rfl, hrank, Nat.le_refl n⟩
      · obtain ⟨h1, h2, h3⟩ := ih htl
        exact ⟨h1, h2, Nat.le_of_succ_le h3⟩
    case isFalse =>
      obtain ⟨h1, h2, h3⟩ := ih h
      exact ⟨h1, h2, Nat.le_of_succ_le h3⟩

theorem pairwise_index_reduceItemsToRanked (keys : Option (List String)) (value : JSVal) :
    ∀ (items : List JSVal) (n : Nat),
      (reduceItemsToRanked keys value items n).Pairwise fun a b => a.index < b.index := by
  intro items
  induction items with
  | nil => intro n; simp [reduceItemsToRanked]
  | cons item rest ih =>
    intro n
    simp only [reduceItemsToRanked]
    split
    · refine List.Pairwise.cons (fun b hb => ?_) (ih (n + 1))
      have := (mem_reduceItemsToRanked hb).2.2
      simpa using Nat.lt_of_succ_le this
    · exact ih (n + 1)

theorem sortedMatches_sorted (items : List JSVal) (value : JSVal)
    (keys : Option (List String)) :
    (sortedMatches items value keys).Pairwise rankedLE :=
  List.sorted_insertionSort rankedLE (rankedMatches items value keys)

theorem sortedMatches_pairwise_before (items : List JSVal) (value : JSVal)
    (keys : Option (List String)) :
    (sortedMatches items value keys).Pairwise rankedBefore := by
  have hs := sortedMatches_sorted items value keys
  have hperm : (sortedMatches items value keys).Perm (rankedMatches items value keys) :=
    List.perm_insertionSort rankedLE (rankedMatches items value keys)
  have hlt : (rankedMatches items value keys).Pairwise fun a b => a.index < b.index :=
    pairwise_index_reduceItemsToRanked keys value items 0
  have hnd : ((rankedMatches items value keys).map fun r => r.index).Nodup :=
    (List.pairwise_map.mpr hlt).imp Nat.ne_of_lt
  have hnd2 : ((sortedMatches items value keys).map fun r => r.index).Nodup :=
    ((hperm.map fun r => r.index).nodup_iff).mpr hnd
  have hne : (sortedMatches items value keys).Pairwise fun a b => a.index ≠ b.index :=
    List.pairwise_map.mp hnd2
  refine (hs.and hne).imp fun {a b} h => ?_
  obtain ⟨hle, hab⟩ := h
  rw [rankedLE_iff] at hle
  unfold rankedBefore
  omega

/-! ## Claims C1 and C2: field-selector behaviour -/

/-- Claim C1 (counterexample): a record lacking the selected field is
ranked `Equals` — far above `NoMatch` — on that selector for the
non-empty query `'undefined'`, because the absent field stringifies to
`"undefined"`, not to empty text; the record is even returned by
`matchSorter`. -/
theorem undefined_query_ranks_missing_field :
    getHighestRanking (.obj []) (some ["name"]) (.str "undefined")
        = ⟨matchRankMap.equals, 0⟩ ∧
    matchRankMap.equals > matchRankMap.noMatch ∧
    jsToString (.str "undefined") ≠ "" ∧
    matchSorter [.obj []] (.str "undefined") (some ["name"]) = [.obj []] := by
  refine ⟨rfl, by decide, by decide, rfl⟩

/-- Claim C1 (amended): if a selector resolves to an absent field,
`bestRank` raises no error; the missing extraction result is the string
`"undefined"` (the coercion of JS `undefined`), so the selector
contributes exactly the rank of `"undefined"` against the query —
`NoMatch` for queries that do not match the text `"undefined"`, but not
for, e.g., the query `'undefined'` itself. -/
theorem missing_field_is_undefined_string (fields : List (String × String)) (k : String)
    (q : JSVal) (h : fields.lookup k = none) :
    getField (.obj fields) k = .undefined ∧
    getMatchRanking (getField (.obj fields) k) q = getMatchRanking (.str "undefined") q ∧
    getHighestRanking (.obj fields) (some [k]) q =
      (if getMatchRanking (.str "undefined") q > matchRankMap.noMatch
        then ⟨getMatchRanking (.str "undefined") q, 0⟩
        else ⟨matchRankMap.noMatch, -1⟩) := by
  have hf : getField (.obj fields) k = .undefined := by
    simp only [getField, h]
  have hr : getMatchRanking JSVal.undefined q = getMatchRanking (.str "undefined") q := rfl
  refine ⟨hf, by rw [hf]; exact hr, ?_⟩
  simp only [getHighestRanking, getHighestRankingGo, hf, hr]

theorem missing_field_is_undefined_string_witness :
    ([] : List (String × String)).lookup "name" = none ∧
    (getField (.obj []) "name" = .undefined ∧
      getMatchRanking (getField (.obj []) "name") (.str "undefined")
          = getMatchRanking (.str "undefined") (.str "undefined") ∧
      getHighestRanking (.obj []) (some ["name"]) (.str "undefined") =
        (if getMatchRanking (.str "undefined") (.str "undefined") > matchRankMap.noMatch
          then ⟨getMatchRanking (.str "undefined") (.str "undefined"), 0⟩
          else ⟨matchRankMap.noMatch, -1⟩)) :=
  ⟨rfl, missing_field_is_undefined_string [] "name" (.str "undefined") rfl⟩

/-- Claim C2 (counterexample): with `keys` equal to the empty list the
reduce never runs, so `bestRank` is `{rank: noMatch, keyIndex: -1}` and
everything is filtered out — not `{rank: classify(item, query), -1}` as
with no `keys` option at all: an empty array is truthy in JS, so the
`!keys` branch is not taken. -/
theorem emptyKeys_counterexample :
    getHighestRanking (.str "foo") (some []) (.str "foo") = ⟨matchRankMap.noMatch, -1⟩ ∧
    getMatchRanking (.str "foo") (.str "foo") = matchRankMap.equals ∧
    matchRankMap.noMatch ≠ matchRankMap.equals ∧
    matchSorter [.str "foo"] (.str "foo") (some []) = [] ∧
    matchSorter [.str "foo"] (.str "foo") none = [.str "foo"] := by
  refine ⟨rfl, rfl, by decide, rfl, rfl⟩

theorem reduceItemsToRanked_empty_keys (value : JSVal) :
    ∀ (items : List JSVal) (n : Nat), reduceItemsToRanked (some []) value items n = [] := by
  intro items
  induction items with
  | nil => intro n; rfl
  | cons item rest ih =>
    intro n
    simp only [reduceItemsToRanked, getHighestRanking, getHighestRankingGo]
    rw [if_neg (by decide), ih]

/-- Claim C2 (amended): when `keys` is absent, `bestRank` is
`{rank: classify(item, query), keyIndex: -1}`; but when `keys` is a
present *empty* list it is `{rank: noMatch, keyIndex: -1}`, so
`matchSorter` with `keys: []` returns the empty array, unlike
`matchSorter` with no `keys` option. -/
theorem bestRank_absent_vs_empty_keys (item value : JSVal) (items : List JSVal) :
    getHighestRanking item none value = ⟨getMatchRanking item value, -1⟩ ∧
    getHighestRanking item (some []) value = ⟨matchRankMap.noMatch, -1⟩ ∧
    matchSorter items value (some []) = [] := by
  refine ⟨rfl, rfl, ?_⟩
  unfold matchSorter sortedMatches rankedMatches
  rw [reduceItemsToRanked_empty_keys]
  rfl

/-! ## Claims C3 and C4: the order policy -/

/-- Claim C3: the comparator never declares two records equal (it returns
`-1` or `1`); the surviving records are emitted sorted by rank tier
descending, then winning key index ascending, then original input index
ascending (`rankedBefore` is that strict lexicographic order, so records
with equal tier and key index keep their input order); and on the input
`['Foo1','Bar','Foo2']` with query `'foo'` the output is exactly
`['Foo1','Foo2']`. -/
theorem matchSorter_order_policy (items : List JSVal) (value : JSVal)
    (keys : Option (List String)) :
    (∀ a b : RankedItem, sortRankedItems a b = -1 ∨ sortRankedItems a b = 1) ∧
    (sortedMatches items value keys).Pairwise rankedBefore ∧
    matchSorter items value keys = (sortedMatches items value keys).map (fun r => r.item) ∧
    matchSorter [.str "Foo1", .str "Bar", .str "Foo2"] (.str "foo") none
        = [.str "Foo1", .str "Foo2"] :=
  ⟨sortRankedItems_ne_zero, sortedMatches_pairwise_before items value keys, rfl, rfl⟩

/-- Claim C4 (counterexample): at equal rank tier, a record whose
`keyIndex` is `-1` is ordered *before* (not after) a record with a real
selector index: the comparator compares `keyIndex` ascending and
`-1 < 0`. -/
theorem negOne_keyIndex_counterexample :
    sortRankedItems ⟨.str "plain", 2, 1, -1⟩ ⟨.str "keyed", 2, 0, 0⟩ = -1 ∧
    sortRankedItems ⟨.str "keyed", 2, 0, 0⟩ ⟨.str "plain", 2, 1, -1⟩ = 1 ∧
    List.insertionSort rankedLE [⟨.str "keyed", 2, 0, 0⟩, ⟨.str "plain", 2, 1, -1⟩]
        = [⟨.str "plain", 2, 1, -1⟩, ⟨.str "keyed", 2, 0, 0⟩] := by
  refine ⟨rfl, rfl, by decide⟩

/-- Claim C4 (amended): for records of equal rank tier where one has
selector index `-1` and the other a non-negative one, the `-1` record is
ordered *before* the record with the real index — `-1` behaves as the
highest priority among selector indices, because the comparator sorts
selector indices ascending. -/
theorem negOne_keyIndex_sorts_first (a b : RankedItem) (hrank : a.rank = b.rank)
    (ha : a.keyIndex = -1) (hb : 0 ≤ b.keyIndex) :
    sortRankedItems a b = -1 ∧ sortRankedItems b a = 1 := by
  constructor <;> (unfold sortRankedItems; split_ifs <;> first | rfl | omega)

theorem negOne_keyIndex_sorts_first_witness :
    (⟨.str "plain", 2, 1, -1⟩ : RankedItem).rank = (⟨.str "keyed", 2, 0, 0⟩ : RankedItem).rank ∧
    (⟨.str "plain", 2, 1, -1⟩ : RankedItem).keyIndex = -1 ∧
    0 ≤ (⟨.str "keyed", 2, 0, 0⟩ : RankedItem).keyIndex ∧
    (sortRankedItems ⟨.str "plain", 2, 1, -1⟩ ⟨.str "keyed", 2, 0, 0⟩ = -1 ∧
      sortRankedItems ⟨.str "keyed", 2, 0, 0⟩ ⟨.str "plain", 2, 1, -1⟩ = 1) :=
  ⟨rfl, rfl, by decide,
    negOne_keyIndex_sorts_first ⟨.str "plain", 2, 1, -1⟩ ⟨.str "keyed", 2, 0, 0⟩ rfl rfl
      (by decide)⟩

/-! ## Claim C5: empty query -/

theorem jsLower_ne_nil {item : JSVal} (hne : jsToString item ≠ "") :
    jsLower item ≠ [] := by
  intro hc
  apply hne
  unfold jsLower at hc
  rw [List.map_eq_nil_iff] at hc
  exact String.ext hc

theorem emptyQuery_rank (item : JSVal) (hne : jsToString item ≠ "") :
    matchRankMap.contains ≤ getMatchRanking item (.str "") := by
  have ht := jsLower_ne_nil hne
  cases hT : jsLower item with
  | nil => exact absurd hT ht
  | cons c ts =>
    have h0 : jsLower (.str "") = ([] : List Char) := rfl
    unfold getMatchRanking
    rw [h0, hT, if_neg (by simp), if_neg (by simp),
      if_pos (show ([] : List Char).isPrefixOf (c :: ts) = true from rfl)]
    decide

theorem exists_record_of_mem {keys : Option (List String)} {value : JSVal} :
    ∀ {items : List JSVal} (n : Nat) {item : JSVal}, item ∈ items →
      (getHighestRanking item keys value).rank > matchRankMap.noMatch →
      ∃ r ∈ reduceItemsToRanked keys value items n, r.item = item := by
  intro items
  induction items with
  | nil => intro n item h; simp at h
  | cons hd rest ih =>
    intro n item hmem hrank
    rcases List.mem_cons.mp hmem with rfl | htl
    · simp only [reduceItemsToRanked]
      rw [if_pos hrank]
      exact ⟨_, List.mem_cons_self _ _, rfl⟩
    · simp only [reduceItemsToRanked]
      split
      · obtain ⟨r, hr, hri⟩ := ih (n + 1) htl hrank
        exact ⟨r, List.mem_cons_of_mem _ hr, hri⟩
      · exact ih (n + 1) htl hrank

theorem mem_matchSorter_of_rank {items : List JSVal} {value : JSVal}
    {keys : Option (List String)} {item : JSVal} (hmem : item ∈ items)
    (hrank : (getHighestRanking item keys value).rank > matchRankMap.noMatch) :
    item ∈ matchSorter items value keys := by
  obtain ⟨r, hr, hri⟩ := exists_record_of_mem 0 hmem hrank
  have hr2 : r ∈ sortedMatches items value keys :=
    (List.perm_insertionSort rankedLE (rankedMatches items value keys)).mem_iff.mpr hr
  exact hri ▸ List.mem_map_of_mem (fun r => r.item) hr2

theorem keyIndex_of_mem_rankedMatches_none {items : List JSVal} {value : JSVal}
    {r : RankedItem} (hr : r ∈ rankedMatches items value none) : r.keyIndex = -1 := by
  have h := (mem_reduceItemsToRanked hr).1
  have := congrArg RankResult.keyIndex h
  simpa [getHighestRanking] using this.symm

/-- Claim C5: with the empty query, every item whose text is non-empty is
ranked `Contains` or better (in fact `StartsWith`), hence survives and
appears in the output, and records of equal rank keep their original
input order. -/
theorem emptyQuery_all_match (items : List JSVal) (item : JSVal)
    (hmem : item ∈ items) (hne : jsToString item ≠ "") :
    matchRankMap.contains ≤ getMatchRanking item (.str "") ∧
    item ∈ matchSorter items (.str "") none ∧
    (sortedMatches items (.str "") none).Pairwise
      (fun a b => a.rank = b.rank → a.index < b.index) := by
  refine ⟨emptyQuery_rank item hne, ?_, ?_⟩
  · apply mem_matchSorter_of_rank hmem
    have := emptyQuery_rank item hne
    show (⟨getMatchRanking item (.str ""), -1⟩ : RankResult).rank > matchRankMap.noMatch
    simp only []
    unfold matchRankMap.contains at this
    unfold matchRankMap.noMatch
    omega
  · have hb := sortedMatches_pairwise_before items (.str "") none
    have hmem2 : ∀ r ∈ sortedMatches items (.str "") none, r.keyIndex = -1 := by
      intro r hr
      exact keyIndex_of_mem_rankedMatches_none
        ((List.perm_insertionSort rankedLE (rankedMatches items (.str "") none)).mem_iff.mp hr)
    refine hb.imp_of_mem (fun {a b} ha hb2 h => ?_)
    intro hrank
    have hka := hmem2 a ha
    have hkb := hmem2 b hb2
    unfold rankedBefore at h
    omega

theorem emptyQuery_all_match_witness :
    (JSVal.str "Foo1") ∈ [JSVal.str "Foo1", JSVal.str "Bar"] ∧
    jsToString (.str "Foo1") ≠ "" ∧
    (matchRankMap.contains ≤ getMatchRanking (.str "Foo1") (.str "") ∧
      (JSVal.str "Foo1") ∈ matchSorter [JSVal.str "Foo1", JSVal.str "Bar"] (.str "") none ∧
      (sortedMatches [JSVal.str "Foo1", JSVal.str "Bar"] (.str "") none).Pairwise
        (fun a b => a.rank = b.rank → a.index < b.index)) :=
  ⟨List.mem_cons_self _ _, by decide,
    emptyQuery_all_match [JSVal.str "Foo1", JSVal.str "Bar"] (.str "Foo1")
      (List.mem_cons_self _ _) (by decide)⟩

/-! ## Claim C6: the acronym tier -/

/-- The acronym construction as the spec words it (refinement comparison
definition): split on spaces into words, split each word on hyphens into
sub-words, then concatenate the first character of every non-empty
sub-word in order (empty sub-words contribute nothing). -/
def acronymSpec (l : List Char) : List Char :=
  (((splitOnChar ' ' l).map (splitOnChar '-')).flatten).filterMap List.head?

theorem foldl_append_take_one (sws : List (List Char)) :
    ∀ acc : List Char,
      sws.foldl (fun acc2 sw => acc2 ++ sw.take 1) acc
        = acc ++ sws.filterMap List.head? := by
  induction sws with
  | nil => intro acc; simp
  | cons sw rest ih =>
    intro acc
    rw [List.foldl_cons, ih]
    cases sw <;> simp [List.filterMap_cons]

theorem getAcronym_eq_acronymSpec (l : List Char) : getAcronym l = acronymSpec l := by
  unfold getAcronym acronymSpec
  generalize splitOnChar ' ' l = words
  have main : ∀ (ws : List (List Char)) (acc : List Char),
      ws.foldl
          (fun acronym w =>
            (splitOnChar '-' w).foldl (fun acc2 sw => acc2 ++ sw.take 1) acronym)
          acc
        = acc ++ ((ws.map (splitOnChar '-')).flatten).filterMap List.head? := by
    intro ws
    induction ws with
    | nil => intro acc; simp
    | cons w rest ih =>
      intro acc
      rw [List.foldl_cons, foldl_append_take_one, ih, List.map_cons, List.flatten_cons,
        List.filterMap_append, List.append_assoc]
  rw [main, List.nil_append]

/-- Claim C6: the source's acronym equals, character for character, the
spec's construction (first character of every non-empty space/hyphen
sub-word, in order); and when classification steps 1–6 have all failed,
the tier is `Acronym` exactly when the acronym of the lowercased
candidate contains the lowercased query as a substring. -/
theorem acronym_tier_correct :
    (∀ l : List Char, getAcronym l = acronymSpec l) ∧
    ∀ t s : JSVal,
      ¬(jsLower s).length > (jsLower t).length →
      jsLower t ≠ jsLower s →
      (jsLower s).isPrefixOf (jsLower t) = false →
      strContains (jsLower t) (' ' :: jsLower s) = false →
      strContains (jsLower t) (jsLower s) = false →
      (jsLower s).length ≠ 1 →
      (getMatchRanking t s = matchRankMap.acronym ↔
        strContains (getAcronym (jsLower t)) (jsLower s) = true) := by
  refine ⟨getAcronym_eq_acronymSpec, ?_⟩
  intro t s h1 h2 h3 h4 h5 h6
  unfold getMatchRanking
  rw [if_neg h1, if_neg h2, if_neg (by simp [h3]), if_neg (by simp [h4]),
    if_neg (by simp [h5]), if_neg h6]
  cases hc : strContains (getAcronym (jsLower t)) (jsLower s) with
  | true => simp [hc]
  | false =>
    rw [if_neg (by simp [hc])]
    unfold stringsByCharOrder
    constructor
    · intro hx
      split at hx <;> exact absurd hx (by decide)
    · intro hx
      exact absurd hx (by decide)

theorem acronym_tier_correct_witness :
    (¬(jsLower (.str "ttotc")).length > (jsLower (.str "The Tail of Two Cities")).length ∧
      jsLower (.str "The Tail of Two Cities") ≠ jsLower (.str "ttotc") ∧
      (jsLower (.str "ttotc")).isPrefixOf (jsLower (.str "The Tail of Two Cities")) = false ∧
      strContains (jsLower (.str "The Tail of Two Cities"))
          (' ' :: jsLower (.str "ttotc")) = false ∧
      strContains (jsLower (.str "The Tail of Two Cities")) (jsLower (.str "ttotc")) = false ∧
      (jsLower (.str "ttotc")).length ≠ 1) ∧
    (getMatchRanking (.str "The Tail of Two Cities") (.str "ttotc") = matchRankMap.acronym ↔
      strContains (getAcronym (jsLower (.str "The Tail of Two Cities")))
          (jsLower (.str "ttotc")) = true) :=
  ⟨⟨by decide, by decide, by decide, by decide, by decide, by decide⟩,
    acronym_tier_correct.2 (.str "The Tail of Two Cities") (.str "ttotc")
      (by decide) (by decide) (by decide) (by decide) (by decide) (by decide)⟩

/-! ## Claim C7: the in-order-subsequence tier -/

theorem findMatchingCharacter_none {q : Char} :
    ∀ {t : List Char}, findMatchingCharacter q t = none → q ∉ t := by
  intro t
  induction t with
  | nil => intro _ h; simp at h
  | cons c rest ih =>
    intro hf h
    simp only [findMatchingCharacter] at hf
    split at hf
    · exact Option.noConfusion hf
    · rcases List.mem_cons.mp h with rfl | htl
      · simp_all
      · exact ih hf htl

theorem findMatchingCharacter_some {q : Char} :
    ∀ {t t2 : List Char}, findMatchingCharacter q t = some t2 →
      ∀ qs : List Char, (List.Sublist (q :: qs) t ↔ List.Sublist qs t2) := by
  intro t
  induction t with
  | nil => intro t2 h; simp [findMatchingCharacter] at h
  | cons c rest ih =>
    intro t2 hf qs
    simp only [findMatchingCharacter] at hf
    split at hf
    case isTrue hc =>
      subst hc
      cases hf
      constructor
      · intro h
        cases h with
        | cons _ h2 =>
          exact (List.sublist_cons_self _ _).trans h2
        | cons₂ _ h2 => exact h2
      · intro h
        exact h.cons₂ _
    case isFalse hc =>
      constructor
      · intro h
        cases h with
        | cons _ h2 => exact (ih hf qs).mp h2
        | cons₂ _ h2 => exact absurd rfl hc
      · intro h
        exact ((ih hf qs).mpr h).cons c

theorem charOrderLoop_iff_sublist :
    ∀ (s t : List Char), charOrderLoop t s = true ↔ List.Sublist s t := by
  intro s
  induction s with
  | nil =>
    intro t
    simp [charOrderLoop, List.nil_sublist]
  | cons q qs ih =>
    intro t
    simp only [charOrderLoop]
    cases hf : findMatchingCharacter q t with
    | none =>
      simp only [iff_false]
      constructor
      · intro h; exact Bool.noConfusion h
      · intro h
        exact absurd (h.subset (List.mem_cons_self q qs)) (findMatchingCharacter_none hf)
    | some t2 =>
      rw [ih t2, findMatchingCharacter_some hf qs]

/-- Claim C7: the greedy single-pass cursor scan decides exactly the
in-order-subsequence relation (every character of the query found in the
candidate in order without reusing an earlier position), and when
classification steps 1–7 have all failed, the tier is
`InOrderSubsequence` (`matches`) exactly when the lowercased query is
such a subsequence of the lowercased candidate, and `NoMatch` otherwise. -/
theorem charOrder_classification :
    (∀ t s : List Char, charOrderLoop t s = true ↔ List.Sublist s t) ∧
    ∀ t s : JSVal,
      ¬(jsLower s).length > (jsLower t).length →
      jsLower t ≠ jsLower s →
      (jsLower s).isPrefixOf (jsLower t) = false →
      strContains (jsLower t) (' ' :: jsLower s) = false →
      strContains (jsLower t) (jsLower s) = false →
      (jsLower s).length ≠ 1 →
      strContains (getAcronym (jsLower t)) (jsLower s) = false →
      ((getMatchRanking t s = matchRankMap.matches ↔
          List.Sublist (jsLower s) (jsLower t)) ∧
        (¬List.Sublist (jsLower s) (jsLower t) →
          getMatchRanking t s = matchRankMap.noMatch)) := by
  refine ⟨fun t s => charOrderLoop_iff_sublist s t, ?_⟩
  intro t s h1 h2 h3 h4 h5 h6 h7
  have hred : getMatchRanking t s = stringsByCharOrder (jsLower t) (jsLower s) := by
    unfold getMatchRanking
    rw [if_neg h1, if_neg h2, if_neg (by simp [h3]), if_neg (by simp [h4]),
      if_neg (by simp [h5]), if_neg h6, if_neg (by simp [h7])]
  rw [hred]
  unfold stringsByCharOrder
  rw [← charOrderLoop_iff_sublist]
  cases hc : charOrderLoop (jsLower t) (jsLower s) with
  | true => simp
  | false => simp; decide

theorem charOrder_classification_witness :
    (¬(jsLower (.str "ttotc")).length > (jsLower (.str "The Tail of Forty Cities")).length ∧
      jsLower (.str "The Tail of Forty Cities") ≠ jsLower (.str "ttotc") ∧
      (jsLower (.str "ttotc")).isPrefixOf (jsLower (.str "The Tail of Forty Cities")) = false ∧
      strContains (jsLower (.str "The Tail of Forty Cities"))
          (' ' :: jsLower (.str "ttotc")) = false ∧
      strContains (jsLower (.str "The Tail of Forty Cities"))
          (jsLower (.str "ttotc")) = false ∧
      (jsLower (.str "ttotc")).length ≠ 1 ∧
      strContains (getAcronym (jsLower (.str "The Tail of Forty Cities")))
          (jsLower (.str "ttotc")) = false) ∧
    ((getMatchRanking (.str "The Tail of Forty Cities") (.str "ttotc")
          = matchRankMap.matches ↔
        List.Sublist (jsLower (.str "ttotc")) (jsLower (.str "The Tail of Forty Cities"))) ∧
      (¬List.Sublist (jsLower (.str "ttotc")) (jsLower (.str "The Tail of Forty Cities")) →
        getMatchRanking (.str "The Tail of Forty Cities") (.str "ttotc")
          = matchRankMap.noMatch)) :=
  ⟨⟨by decide, by decide, by decide, by decide, by decide, by decide, by decide⟩,
    charOrder_classification.2 (.str "The Tail of Forty Cities") (.str "ttotc")
      (by decide) (by decide) (by decide) (by decide) (by decide) (by decide) (by decide)⟩

/-! ## Claim C8: single-character queries -/

theorem mem_of_isPrefixOf {s t : List Char} (h : s.isPrefixOf t = true) {c : Char}
    (hc : c ∈ s) : c ∈ t :=
  (List.isPrefixOf_iff_prefix.mp h).sublist.subset hc

theorem mem_of_strContains :
    ∀ {t s : List Char}, strContains t s = true → ∀ {c : Char}, c ∈ s → c ∈ t := by
  intro t
  induction t with
  | nil =>
    intro s h c hc
    simp only [strContains, List.isEmpty_iff] at h
    subst h
    simp at hc
  | cons a rest ih =>
    intro s h c hc
    simp only [strContains, Bool.or_eq_true] at h
    rcases h with hp | hrec
    · exact mem_of_isPrefixOf hp hc
    · exact List.mem_cons_of_mem a (ih hrec hc)

/-- Claim C8: a query of a single (lowercased) character is never
assigned the `Acronym` or `InOrderSubsequence` tier, and when that
character does not occur in the lowercased candidate the tier is
`NoMatch`; query `'d'` against `['abc']` yields the empty output. -/
theorem single_char_query (t q : JSVal) (hlen : (jsLower q).length = 1) :
    (getMatchRanking t q ≠ matchRankMap.acronym ∧
      getMatchRanking t q ≠ matchRankMap.matches) ∧
    ((∀ c ∈ jsLower q, c ∉ jsLower t) → getMatchRanking t q = matchRankMap.noMatch) ∧
    matchSorter [.str "abc"] (.str "d") none = [] := by
  obtain ⟨ch, hch⟩ := List.length_eq_one.mp hlen
  refine ⟨?_, ?_, by decide⟩
  · unfold getMatchRanking
    dsimp only
    split_ifs <;> constructor <;> decide
  · intro habs
    have hmem : ch ∉ jsLower t := habs ch (by rw [hch]; exact List.mem_cons_self _ _)
    unfold getMatchRanking
    dsimp only
    split_ifs with h1 h2 h3 h4 h5
    · rfl
    · exact absurd (by rw [h2, hch]; exact List.mem_cons_self _ _) hmem
    · exact absurd (mem_of_isPrefixOf h3 (by rw [hch]; exact List.mem_cons_self _ _)) hmem
    · exact absurd
        (mem_of_strContains h4 (List.mem_cons_of_mem ' '
          (by rw [hch]; exact List.mem_cons_self _ _))) hmem
    · exact absurd (mem_of_strContains h5 (by rw [hch]; exact List.mem_cons_self _ _)) hmem
    · rfl

theorem single_char_query_witness :
    (jsLower (.str "d")).length = 1 ∧
    ((getMatchRanking (.str "abc") (.str "d") ≠ matchRankMap.acronym ∧
        getMatchRanking (.str "abc") (.str "d") ≠ matchRankMap.matches) ∧
      ((∀ c ∈ jsLower (.str "d"), c ∉ jsLower (.str "abc")) →
        getMatchRanking (.str "abc") (.str "d") = matchRankMap.noMatch) ∧
      matchSorter [.str "abc"] (.str "d") none = []) :=
  ⟨by decide, single_char_query (.str "abc") (.str "d") (by decide)⟩

/-! ## Claim C9: idempotence of the pipeline -/

/-- Renumber a record list with consecutive input indices starting at
`n`: the shape the ranking pass produces when re-ranking an
already-filtered output in which every item still attains its old rank. -/
def reindex : List RankedItem → Nat → List RankedItem
  | [], _ => []
  | r :: rest, n => ⟨r.item, r.rank, n, r.keyIndex⟩ :: reindex rest (n + 1)

theorem reindex_map_item : ∀ (l : List RankedItem) (n : Nat),
    (reindex l n).map (fun r => r.item) = l.map fun r => r.item := by
  intro l
  induction l with
  | nil => intro n; rfl
  | cons r rest ih => intro n; simp [reindex, ih]

theorem mem_reindex : ∀ {l : List RankedItem} {n : Nat} {r2 : RankedItem},
    r2 ∈ reindex l n →
      ∃ b ∈ l, r2.rank = b.rank ∧ r2.keyIndex = b.keyIndex ∧ n ≤ r2.index := by
  intro l
  induction l with
  | nil => intro n r2 h; simp [reindex] at h
  | cons r rest ih =>
    intro n r2 h
    rcases List.mem_cons.mp h with rfl | htl
    · exact ⟨r, List.mem_cons_self _ _, rfl, rfl, Nat.le_refl n⟩
    · obtain ⟨b, hb, h1, h2, h3⟩ := ih htl
      exact ⟨b, List.mem_cons_of_mem _ hb, h1, h2, Nat.le_of_succ_le h3⟩

theorem reduce_map_item_eq_reindex {keys : Option (List String)} {value : JSVal} :
    ∀ (l : List RankedItem) (n : Nat),
      (∀ r ∈ l, getHighestRanking r.item keys value = ⟨r.rank, r.keyIndex⟩ ∧
        r.rank > matchRankMap.noMatch) →
      reduceItemsToRanked keys value (l.map fun r => r.item) n = reindex l n := by
  intro l
  induction l with
  | nil => intro n _; rfl
  | cons r rest ih =>
    intro n h
    obtain ⟨h1, h2⟩ := h r (List.mem_cons_self r rest)
    simp only [List.map_cons, reduceItemsToRanked, h1]
    rw [if_pos h2, ih (n + 1) (fun r2 hr2 => h r2 (List.mem_cons_of_mem r hr2))]
    rfl

theorem reindex_pairwise_rankedLE :
    ∀ (l : List RankedItem) (n : Nat),
      l.Pairwise (fun a b => b.rank < a.rank ∨ (a.rank = b.rank ∧ a.keyIndex ≤ b.keyIndex)) →
      (reindex l n).Pairwise rankedLE := by
  intro l
  induction l with
  | nil => intro n _; exact List.Pairwise.nil
  | cons r rest ih =>
    intro n h
    obtain ⟨hr, hrest⟩ := List.pairwise_cons.mp h
    refine List.pairwise_cons.mpr ⟨?_, ih (n + 1) hrest⟩
    intro b2 hb2
    obtain ⟨b, hb, h1, h2, h3⟩ := mem_reindex hb2
    have hrb := hr b hb
    rw [rankedLE_iff]
    dsimp only
    omega

/-- Claim C9: running `matchSorter` on its own output, with the same
query and the same keys option, returns that output unchanged: every
output item re-attains its old rank and key index, all survive the
filter, and the list is already sorted for the comparator, so the stable
sort leaves it in place. -/
theorem matchSorter_idempotent (items : List JSVal) (value : JSVal)
    (keys : Option (List String)) :
    matchSorter (matchSorter items value keys) value keys = matchSorter items value keys := by
  have hmemS : ∀ r ∈ sortedMatches items value keys,
      getHighestRanking r.item keys value = ⟨r.rank, r.keyIndex⟩ ∧
        r.rank > matchRankMap.noMatch := by
    intro r hr
    have hr2 : r ∈ rankedMatches items value keys :=
      (List.perm_insertionSort rankedLE (rankedMatches items value keys)).mem_iff.mp hr
    obtain ⟨h1, h2, _⟩ := mem_reduceItemsToRanked hr2
    exact ⟨h1, h2⟩
  have hred : rankedMatches (matchSorter items value keys) value keys
      = reindex (sortedMatches items value keys) 0 :=
    reduce_map_item_eq_reindex (sortedMatches items value keys) 0 hmemS
  have hle2 : (sortedMatches items value keys).Pairwise
      (fun a b => b.rank < a.rank ∨ (a.rank = b.rank ∧ a.keyIndex ≤ b.keyIndex)) :=
    (sortedMatches_sorted items value keys).imp fun {a b} h => by
      rw [rankedLE_iff] at h; omega
  have hsorted : List.Sorted rankedLE (reindex (sortedMatches items value keys) 0) :=
    reindex_pairwise_rankedLE (sortedMatches items value keys) 0 hle2
  show (sortedMatches (matchSorter items value keys) value keys).map (fun r => r.item)
      = matchSorter items value keys
  unfold sortedMatches
  rw [hred, List.Sorted.insertionSort_eq hsorted, reindex_map_item]
  rfl

/-! ## Claim C10: string coercion of non-string values -/

/-- Claim C10: both the compared value and the query are coerced to
their JS string rendering before lowercasing, so non-string items
participate textually: `undefined` is ranked `Equals` against the query
`'undefined'` and returned, `null` matches `'null'` (also at `Equals`),
and a numeric item matches a proper textual prefix of its decimal
rendering at `StartsWith`. -/
theorem coercion_to_text :
    (∀ t s : JSVal,
      getMatchRanking t s = getMatchRanking (.str (jsToString t)) (.str (jsToString s))) ∧
    getMatchRanking .undefined (.str "undefined") = matchRankMap.equals ∧
    matchSorter [.undefined] (.str "undefined") none = [.undefined] ∧
    getMatchRanking .null (.str "null") = matchRankMap.equals ∧
    matchSorter [.null] (.str "null") none = [.null] ∧
    getMatchRanking (.num 12345) (.str "123") = matchRankMap.startsWith ∧
    matchSorter [.num 12345] (.str "123") none = [.num 12345] :=
  ⟨fun _ _ => rfl, rfl, rfl, rfl, rfl, rfl, rfl⟩
